import Mathlib

/-!
Shallow embedding of the portfolio-analysis program in `pol.py` and proofs
about its core computation.

The embedded parts are:
  * `process_stock_data` (the series normalizer / table builder),
  * `calculate_portfolio_performance` (the weighted price index),
  * `calculate_combined_volume` (the weighted volume index).

Numeric values are modelled as rationals; a daily bar is a record of its
OHLCV fields plus its date (the millisecond timestamp used as the frame
index; `pd.to_datetime(..., unit='ms')` is an order isomorphism from the
raw timestamps, so dates are kept as naturals).  Python dictionaries are
modelled as insertion-ordered association lists.  Each runtime fault the
Python code can hit is modelled as an explicit error value:

  * `indexOutOfBounds`: the `IndexError` raised by `df['close'].iloc[0]`
    on a zero-row frame;
  * `typeErrorNoneIter`: the `TypeError` raised by `sorted(list(None))`
    when the input dictionary is empty and `common_dates` stays `None`;
  * `keyErrorSetIndex`: the `KeyError` raised by
    `pd.DataFrame([]).set_index('date')` when no common date exists, so
    the row list is empty and the empty frame has no 'date' column;
  * `keyErrorDict`: the `KeyError` raised by `normalized_dfs[symbol]`
    when a weight-map symbol has no fetched series;
  * `keyErrorLoc`: the `KeyError` raised by `.loc[date, field]` when the
    date is missing from a frame's index.
-/

/-- One daily bar of a symbol's series: the columns of the DataFrame built
by `process_stock_data` (open, high, low, close, volume, vwap) keyed by
`date`.  The `open` column is called `opn` because `open` is a Lean
keyword. -/
structure Bar where
  opn : ℚ
  high : ℚ
  low : ℚ
  close : ℚ
  volume : ℚ
  vwap : ℚ
  date : ℕ
deriving DecidableEq

/-- A raw bar of the Polygon.io payload, with the short keys
`o,h,l,c,v,vw,t` (`pol.py` lines 26-34). -/
structure RawBar where
  o : ℚ
  h : ℚ
  l : ℚ
  c : ℚ
  v : ℚ
  vw : ℚ
  t : ℕ
deriving DecidableEq

/-- The runtime faults of the aggregator, as documented at the top of the
file. -/
inductive AggError where
  | indexOutOfBounds
  | typeErrorNoneIter
  | keyErrorSetIndex
  | keyErrorDict
  | keyErrorLoc
deriving DecidableEq

/-- `stock_data_dict`: symbol ↦ series, in insertion order. -/
abbrev SMap := List (String × List Bar)

/-- `weights`: symbol ↦ integer percentage weight, in insertion order. -/
abbrev WMap := List (String × Int)

/-- Column renaming of `process_stock_data` (`pol.py` lines 26-34):
`c`→close, `v`→volume, `t`→date, `o`→open, `h`→high, `l`→low, `vw`→vwap. -/
def toBar (r : RawBar) : Bar :=
  { opn := r.o, high := r.h, low := r.l, close := r.c, volume := r.v,
    vwap := r.vw, date := r.t }

/-- `process_stock_data` (`pol.py` lines 21-40): rename the raw columns,
index by date and sort ascending (`df.sort_index()`).  The sort is a plain
comparison sort on the date key; it neither deduplicates nor fails. -/
def process_stock_data (results : List RawBar) : List Bar :=
  (results.map toBar).mergeSort (fun a b => a.date ≤ b.date)

/-- Rebasing step shared by both aggregator functions (`pol.py` lines
44-48 and 70-74): replace the chosen field of every bar by
`field / field.iloc[0] * 100`, or fail like `iloc[0]` does when the series
has zero bars.  `get`/`set` select the field (`close` or `volume`). -/
def normalizeField (get : Bar → ℚ) (set : Bar → ℚ → Bar) :
    List Bar → Except AggError (List Bar)
  | [] => .error .indexOutOfBounds
  | b0 :: t => .ok ((b0 :: t).map (fun b => set b (get b / get b0 * 100)))

/-- The `for symbol, df in stock_data_dict.items()` normalization loop
(`pol.py` lines 44-48): build `normalized_dfs` in insertion order,
propagating the first fault. -/
def normalizeAll (get : Bar → ℚ) (set : Bar → ℚ → Bar) :
    SMap → Except AggError SMap
  | [] => .ok []
  | p :: rest =>
    match normalizeField get set p.2 with
    | .error e => .error e
    | .ok ndf =>
      match normalizeAll get set rest with
      | .error e => .error e
      | .ok nrest => .ok ((p.1, ndf) :: nrest)

/-- `set(df.index)`: the set of dates of a series. -/
def dateSet (df : List Bar) : Finset ℕ := (df.map Bar.date).toFinset

/-- The `common_dates` computation (`pol.py` lines 50-55): start from
`None`, take the date set of the first frame, and intersect with each
following frame's date set.  `none` models `common_dates` still being
`None` after the loop (empty dictionary), which makes the subsequent
`sorted(list(None))` raise. -/
def interDates : SMap → Option (Finset ℕ)
  | [] => none
  | p :: rest => some (rest.foldl (fun acc q => acc ∩ dateSet q.2) (dateSet p.2))

/-- Dictionary lookup `normalized_dfs[symbol]` on an association list. -/
def lookupDF : SMap → String → Option (List Bar)
  | [], _ => none
  | p :: t, s => if p.1 = s then some p.2 else lookupDF t s

/-- Weight-map lookup `weights[symbol]` on an association list. -/
def lookupW : WMap → String → Option Int
  | [], _ => none
  | q :: t, s => if q.1 = s then some q.2 else lookupW t s

/-- Row lookup `df.loc[date]`: the first bar carrying the given date. -/
def locBar : List Bar → ℕ → Option Bar
  | [], _ => none
  | b :: t, d => if b.date = d then some b else locBar t d

/-- The inner accumulation loop of `pol.py` lines 61-63: starting from
`value = 0`, add `normalized_dfs[symbol].loc[date, field] * (weight / 100)`
for each entry of the weight map, faulting like Python does when a lookup
fails. -/
def weightedValueAux (get : Bar → ℚ) (ndfs : SMap) (d : ℕ) :
    ℚ → WMap → Except AggError ℚ
  | acc, [] => .ok acc
  | acc, q :: rest =>
    match lookupDF ndfs q.1 with
    | none => .error .keyErrorDict
    | some df =>
      match locBar df d with
      | none => .error .keyErrorLoc
      | some b => weightedValueAux get ndfs d (acc + get b * ((q.2 : ℚ) / 100)) rest

/-- The outer `for date in common_dates` loop (`pol.py` lines 59-64):
one `(date, value)` row per common date, in date order. -/
def buildRows (get : Bar → ℚ) (ndfs : SMap) (w : WMap) :
    List ℕ → Except AggError (List (ℕ × ℚ))
  | [] => .ok []
  | d :: ds =>
    match weightedValueAux get ndfs d 0 w with
    | .error e => .error e
    | .ok v =>
      match buildRows get ndfs w ds with
      | .error e => .error e
      | .ok rest => .ok ((d, v) :: rest)

/-- The tail of both aggregator functions after the normalization loop:
intersect the dates, sort them ascending, accumulate a row per date, and
build the output frame, which faults like
`pd.DataFrame([]).set_index('date')` when there are no rows. -/
def restOfAggregate (get : Bar → ℚ) (ndfs : SMap) (w : WMap) :
    Except AggError (List (ℕ × ℚ)) :=
  match interDates ndfs with
  | none => .error .typeErrorNoneIter
  | some cds =>
    match buildRows get ndfs w (Finset.sort (· ≤ ·) cds) with
    | .error e => .error e
    | .ok rows => if rows = [] then .error .keyErrorSetIndex else .ok rows

/-- Shared shape of `calculate_portfolio_performance` (`pol.py` lines
42-66) and `calculate_combined_volume` (lines 68-92), parameterized by the
field the function rebases and sums. -/
def aggregateOn (get : Bar → ℚ) (set : Bar → ℚ → Bar) (smap : SMap) (w : WMap) :
    Except AggError (List (ℕ × ℚ)) :=
  match normalizeAll get set smap with
  | .error e => .error e
  | .ok ndfs => restOfAggregate get ndfs w

/-- Writing the `close` column of a bar. -/
def closeSet (b : Bar) (x : ℚ) : Bar := { b with close := x }

/-- Writing the `volume` column of a bar. -/
def volumeSet (b : Bar) (x : ℚ) : Bar := { b with volume := x }

/-- `calculate_portfolio_performance` (`pol.py` lines 42-66): the weighted
composite price index over the common dates, rebased to 100 at each
series' own first bar. -/
def calculate_portfolio_performance (smap : SMap) (w : WMap) :
    Except AggError (List (ℕ × ℚ)) :=
  aggregateOn Bar.close closeSet smap w

/-- `calculate_combined_volume` (`pol.py` lines 68-92): the weighted
composite volume index, structurally identical to the price index but on
the `volume` column. -/
def calculate_combined_volume (smap : SMap) (w : WMap) :
    Except AggError (List (ℕ × ℚ)) :=
  aggregateOn Bar.volume volumeSet smap w

/-! Equation lemmas for the recursive definitions, used both for symbolic
reasoning and for evaluating the embedding on concrete inputs. -/

@[simp] lemma lookupDF_nil (s : String) : lookupDF [] s = none := rfl

@[simp] lemma lookupDF_cons (p : String × List Bar) (t : SMap) (s : String) :
    lookupDF (p :: t) s = if p.1 = s then some p.2 else lookupDF t s := rfl

@[simp] lemma lookupW_nil (s : String) : lookupW [] s = none := rfl

@[simp] lemma lookupW_cons (q : String × Int) (t : WMap) (s : String) :
    lookupW (q :: t) s = if q.1 = s then some q.2 else lookupW t s := rfl

@[simp] lemma locBar_nil (d : ℕ) : locBar [] d = none := rfl

@[simp] lemma locBar_cons (b : Bar) (t : List Bar) (d : ℕ) :
    locBar (b :: t) d = if b.date = d then some b else locBar t d := rfl

@[simp] lemma normalizeAll_nil (get : Bar → ℚ) (set : Bar → ℚ → Bar) :
    normalizeAll get set [] = .ok [] := rfl

lemma normalizeAll_cons (get : Bar → ℚ) (set : Bar → ℚ → Bar)
    (p : String × List Bar) (rest : SMap) :
    normalizeAll get set (p :: rest) =
      match normalizeField get set p.2 with
      | .error e => .error e
      | .ok ndf =>
        match normalizeAll get set rest with
        | .error e => .error e
        | .ok nrest => .ok ((p.1, ndf) :: nrest) := rfl

@[simp] lemma weightedValueAux_nil (get : Bar → ℚ) (ndfs : SMap) (d : ℕ) (acc : ℚ) :
    weightedValueAux get ndfs d acc [] = .ok acc := rfl

lemma weightedValueAux_cons (get : Bar → ℚ) (ndfs : SMap) (d : ℕ) (acc : ℚ)
    (q : String × Int) (rest : WMap) :
    weightedValueAux get ndfs d acc (q :: rest) =
      match lookupDF ndfs q.1 with
      | none => .error .keyErrorDict
      | some df =>
        match locBar df d with
        | none => .error .keyErrorLoc
        | some b => weightedValueAux get ndfs d (acc + get b * ((q.2 : ℚ) / 100)) rest := rfl

@[simp] lemma buildRows_nil (get : Bar → ℚ) (ndfs : SMap) (w : WMap) :
    buildRows get ndfs w [] = .ok [] := rfl

lemma buildRows_cons (get : Bar → ℚ) (ndfs : SMap) (w : WMap) (d : ℕ) (ds : List ℕ) :
    buildRows get ndfs w (d :: ds) =
      match weightedValueAux get ndfs d 0 w with
      | .error e => .error e
      | .ok v =>
        match buildRows get ndfs w ds with
        | .error e => .error e
        | .ok rest => .ok ((d, v) :: rest) := rfl

/-! Helper functions and lemmas shared by the proofs below. -/

/-- The pure rebased series of a non-empty input (what `normalizeField`
returns in its success case); on the empty list it returns the empty
list. -/
def normF (get : Bar → ℚ) (set : Bar → ℚ → Bar) : List Bar → List Bar
  | [] => []
  | b0 :: t => (b0 :: t).map (fun b => set b (get b / get b0 * 100))

/-- The normalized dictionary `normalized_dfs` as a pure map. -/
def mapNorm (get : Bar → ℚ) (set : Bar → ℚ → Bar) (smap : SMap) : SMap :=
  smap.map (fun p => (p.1, normF get set p.2))

lemma normalizeField_ok_of_ne (get : Bar → ℚ) (set : Bar → ℚ → Bar)
    {df : List Bar} (h : df ≠ []) :
    normalizeField get set df = .ok (normF get set df) := by
  cases df with
  | nil => exact absurd rfl h
  | cons b0 t => rfl

lemma normalizeAll_ok_iff (get : Bar → ℚ) (set : Bar → ℚ → Bar)
    (smap : SMap) (ndfs : SMap) :
    normalizeAll get set smap = .ok ndfs ↔
      (∀ p ∈ smap, p.2 ≠ []) ∧ ndfs = mapNorm get set smap := by
  induction smap generalizing ndfs with
  | nil => simp [mapNorm, Eq.comm]
  | cons p rest ih =>
    rw [normalizeAll_cons]
    constructor
    · intro h
      cases hnf : normalizeField get set p.2 with
      | error e => rw [hnf] at h; exact absurd h (by simp)
      | ok ndf =>
        rw [hnf] at h
        cases hrest : normalizeAll get set rest with
        | error e => rw [hrest] at h; exact absurd h (by simp)
        | ok nrest =>
          rw [hrest] at h
          simp only [Except.ok.injEq] at h
          subst h
          obtain ⟨h1, h2⟩ := (ih nrest).mp hrest
          have hpne : p.2 ≠ [] := by
            intro he
            rw [he] at hnf
            exact absurd hnf (by simp [normalizeField])
          have hndf : ndf = normF get set p.2 := by
            rw [normalizeField_ok_of_ne get set hpne] at hnf
            exact (Except.ok.inj hnf).symm
          refine ⟨?_, ?_⟩
          · intro q hq
            rcases List.mem_cons.mp hq with hq | hq
            · rw [hq]; exact hpne
            · exact h1 q hq
          · simp [mapNorm, hndf, h2]
    · rintro ⟨h1, rfl⟩
      have hp : p.2 ≠ [] := h1 p (List.mem_cons_self p rest)
      rw [normalizeField_ok_of_ne get set hp,
        (ih (mapNorm get set rest)).mpr ⟨fun q hq => h1 q (List.mem_cons_of_mem p hq), rfl⟩]
      rfl

lemma mem_dateSet {df : List Bar} {d : ℕ} :
    d ∈ dateSet df ↔ ∃ b ∈ df, b.date = d := by
  simp [dateSet]

lemma dateSet_map_of_preserve {f : Bar → Bar} (hf : ∀ b, (f b).date = b.date)
    (df : List Bar) : dateSet (df.map f) = dateSet df := by
  unfold dateSet
  rw [List.map_map]
  congr 1
  exact List.map_congr_left (fun b _ => hf b)

lemma normF_date (get : Bar → ℚ) (set : Bar → ℚ → Bar)
    (hdate : ∀ b x, (set b x).date = b.date) (df : List Bar) :
    dateSet (normF get set df) = dateSet df := by
  cases df with
  | nil => rfl
  | cons b0 t => exact dateSet_map_of_preserve (fun b => hdate b _) _

lemma interDates_mapNorm (get : Bar → ℚ) (set : Bar → ℚ → Bar)
    (hdate : ∀ b x, (set b x).date = b.date) (smap : SMap) :
    interDates (mapNorm get set smap) = interDates smap := by
  cases smap with
  | nil => rfl
  | cons p rest =>
    unfold interDates mapNorm
    simp only [List.map_cons, List.foldl_map]
    rw [normF_date get set hdate]
    have hfun : (fun (acc : Finset ℕ) (q : String × List Bar) =>
        acc ∩ dateSet (normF get set q.2)) = fun acc q => acc ∩ dateSet q.2 := by
      funext acc q
      rw [normF_date get set hdate]
    rw [hfun]

lemma mem_foldl_inter {l : SMap} {a : Finset ℕ} {d : ℕ} :
    d ∈ l.foldl (fun acc q => acc ∩ dateSet q.2) a ↔
      d ∈ a ∧ ∀ p ∈ l, d ∈ dateSet p.2 := by
  induction l generalizing a with
  | nil => simp
  | cons p rest ih =>
    simp only [List.foldl_cons, ih, Finset.mem_inter, List.mem_cons]
    constructor
    · rintro ⟨⟨h1, h2⟩, h3⟩
      refine ⟨h1, fun q hq => ?_⟩
      rcases hq with hq | hq
      · rw [hq]; exact h2
      · exact h3 q hq
    · rintro ⟨h1, h2⟩
      exact ⟨⟨h1, h2 p (Or.inl rfl)⟩, fun q hq => h2 q (Or.inr hq)⟩

lemma mem_interDates {smap : SMap} {cds : Finset ℕ} {d : ℕ}
    (h : interDates smap = some cds) :
    d ∈ cds ↔ ∀ p ∈ smap, d ∈ dateSet p.2 := by
  cases smap with
  | nil => simp [interDates] at h
  | cons p rest =>
    unfold interDates at h
    cases h
    rw [mem_foldl_inter]
    constructor
    · rintro ⟨h1, h2⟩ q hq
      rcases List.mem_cons.mp hq with hq | hq
      · rw [hq]; exact h1
      · exact h2 q hq
    · intro h
      exact ⟨h p (by simp), fun q hq => h q (by simp [hq])⟩

lemma lookupDF_map_snd (F : List Bar → List Bar) (smap : SMap) (s : String) :
    lookupDF (smap.map (fun p => (p.1, F p.2))) s = (lookupDF smap s).map F := by
  induction smap with
  | nil => rfl
  | cons p rest ih =>
    simp only [List.map_cons, lookupDF_cons]
    by_cases h : p.1 = s <;> simp [h, ih]

lemma lookupDF_mem {smap : SMap} {s : String} {df : List Bar}
    (h : lookupDF smap s = some df) : (s, df) ∈ smap := by
  induction smap with
  | nil => simp [lookupDF] at h
  | cons p rest ih =>
    rw [lookupDF_cons] at h
    by_cases hp : p.1 = s
    · rw [if_pos hp] at h
      cases h
      subst hp
      simp
    · rw [if_neg hp] at h
      exact List.mem_cons_of_mem _ (ih h)

lemma locBar_isSome_of_mem {df : List Bar} {d : ℕ} (h : d ∈ dateSet df) :
    ∃ b, locBar df d = some b ∧ b.date = d := by
  induction df with
  | nil => simp [dateSet] at h
  | cons b t ih =>
    by_cases hb : b.date = d
    · exact ⟨b, by simp [hb], hb⟩
    · rw [mem_dateSet] at h
      obtain ⟨b', hb', hd'⟩ := h
      rcases List.mem_cons.mp hb' with hb' | hb'
      · rw [hb'] at hd'; exact absurd hd' hb
      · obtain ⟨b'', h1, h2⟩ := ih (mem_dateSet.mpr ⟨b', hb', hd'⟩)
        exact ⟨b'', by simp [hb, h1], h2⟩

lemma locBar_map {f : Bar → Bar} (hf : ∀ b, (f b).date = b.date)
    (df : List Bar) (d : ℕ) : locBar (df.map f) d = (locBar df d).map f := by
  induction df with
  | nil => rfl
  | cons b t ih =>
    simp only [List.map_cons, locBar_cons, hf b]
    by_cases h : b.date = d <;> simp [h, ih]

/-- The contribution of one weight-map entry to the weighted sum, as the
code computes it from the normalized dictionary. -/
def codeTerm (get : Bar → ℚ) (ndfs : SMap) (d : ℕ) (q : String × Int) : ℚ :=
  match lookupDF ndfs q.1 with
  | none => 0
  | some df =>
    match locBar df d with
    | none => 0
    | some b => get b * ((q.2 : ℚ) / 100)

lemma weightedValueAux_ok (get : Bar → ℚ) (ndfs : SMap) (d : ℕ) (w : WMap)
    (hfound : ∀ q ∈ w, ∃ df b, lookupDF ndfs q.1 = some df ∧ locBar df d = some b) :
    ∀ acc : ℚ,
      weightedValueAux get ndfs d acc w = .ok (acc + (w.map (codeTerm get ndfs d)).sum) := by
  induction w with
  | nil => intro acc; simp
  | cons q rest ih =>
    intro acc
    obtain ⟨df, b, h1, h2⟩ := hfound q (by simp)
    rw [weightedValueAux_cons, h1]
    simp only [h2]
    rw [ih (fun q hq => hfound q (by simp [hq]))]
    simp only [List.map_cons, List.sum_cons, codeTerm, h1, h2]
    rw [add_assoc]

lemma buildRows_ok (get : Bar → ℚ) (ndfs : SMap) (w : WMap) (ds : List ℕ)
    (hfound : ∀ d ∈ ds, ∀ q ∈ w,
      ∃ df b, lookupDF ndfs q.1 = some df ∧ locBar df d = some b) :
    buildRows get ndfs w ds =
      .ok (ds.map (fun d => (d, (w.map (codeTerm get ndfs d)).sum))) := by
  induction ds with
  | nil => simp
  | cons d rest ih =>
    rw [buildRows_cons, weightedValueAux_ok get ndfs d w (hfound d (by simp)) 0,
      ih (fun d' hd' => hfound d' (by simp [hd']))]
    simp

lemma buildRows_map_fst {get : Bar → ℚ} {ndfs : SMap} {w : WMap} {ds : List ℕ}
    {rows : List (ℕ × ℚ)} (h : buildRows get ndfs w ds = .ok rows) :
    rows.map Prod.fst = ds := by
  induction ds generalizing rows with
  | nil => simp at h; simp [← h]
  | cons d rest ih =>
    rw [buildRows_cons] at h
    cases h1 : weightedValueAux get ndfs d 0 w with
    | error e => rw [h1] at h; simp at h
    | ok v =>
      rw [h1] at h
      cases h2 : buildRows get ndfs w rest with
      | error e => rw [h2] at h; simp at h
      | ok rest' =>
        rw [h2] at h
        simp only [] at h
        cases h
        simp [ih h2]

lemma buildRows_mem {get : Bar → ℚ} {ndfs : SMap} {w : WMap} {ds : List ℕ}
    {rows : List (ℕ × ℚ)} (h : buildRows get ndfs w ds = .ok rows) :
    ∀ dv ∈ rows, dv.1 ∈ ds ∧ weightedValueAux get ndfs dv.1 0 w = .ok dv.2 := by
  induction ds generalizing rows with
  | nil =>
    simp only [buildRows_nil, Except.ok.injEq] at h
    subst h
    simp
  | cons d rest ih =>
    rw [buildRows_cons] at h
    cases h1 : weightedValueAux get ndfs d 0 w with
    | error e => rw [h1] at h; simp at h
    | ok v =>
      rw [h1] at h
      cases h2 : buildRows get ndfs w rest with
      | error e => rw [h2] at h; simp at h
      | ok rest' =>
        rw [h2] at h
        simp only [] at h
        cases h
        intro dv hdv
        rcases List.mem_cons.mp hdv with hdv | hdv
        · subst hdv; exact ⟨by simp, h1⟩
        · obtain ⟨ha, hb⟩ := ih h2 dv hdv
          exact ⟨by simp [ha], hb⟩

lemma aggregateOn_ok_inv {get : Bar → ℚ} {set : Bar → ℚ → Bar} {smap : SMap}
    {w : WMap} {out : List (ℕ × ℚ)}
    (h : aggregateOn get set smap w = .ok out) :
    ∃ cds, (∀ p ∈ smap, p.2 ≠ []) ∧ interDates (mapNorm get set smap) = some cds ∧
      buildRows get (mapNorm get set smap) w (Finset.sort (· ≤ ·) cds) = .ok out ∧
      out ≠ [] := by
  unfold aggregateOn at h
  cases h1 : normalizeAll get set smap with
  | error e => rw [h1] at h; simp at h
  | ok ndfs =>
    rw [h1] at h
    simp only [] at h
    obtain ⟨hne, rfl⟩ := (normalizeAll_ok_iff get set smap ndfs).mp h1
    unfold restOfAggregate at h
    cases h2 : interDates (mapNorm get set smap) with
    | none => rw [h2] at h; simp at h
    | some cds =>
      rw [h2] at h
      simp only [] at h
      cases h3 : buildRows get (mapNorm get set smap) w (Finset.sort (· ≤ ·) cds) with
      | error e => rw [h3] at h; simp at h
      | ok rows =>
        rw [h3] at h
        simp only [] at h
        by_cases hrows : rows = []
        · rw [if_pos hrows] at h; simp at h
        · rw [if_neg hrows] at h
          cases h
          exact ⟨cds, hne, rfl, h3, hrows⟩

lemma sort_eq_of (s : Finset ℕ) (l : List ℕ) (h1 : l.Sorted (· ≤ ·)) (h2 : l.Nodup)
    (h3 : l.toFinset = s) : Finset.sort (· ≤ ·) s = l := by
  refine List.eq_of_perm_of_sorted ?_ (Finset.sort_sorted _ _) h1
  refine List.perm_of_nodup_nodup_toFinset_eq (Finset.sort_nodup _ _) h2 ?_
  rw [Finset.sort_toFinset, h3]

@[simp] lemma closeSet_date (b : Bar) (x : ℚ) : (closeSet b x).date = b.date := rfl

@[simp] lemma volumeSet_date (b : Bar) (x : ℚ) : (volumeSet b x).date = b.date := rfl

@[simp] lemma closeSet_get (b : Bar) (x : ℚ) : (closeSet b x).close = x := rfl

@[simp] lemma volumeSet_get (b : Bar) (x : ℚ) : (volumeSet b x).volume = x := rfl

/-! The specification-side description of the weighted sum, used to state
the functional-correctness claim about the composite value. -/

/-- The rebased value of a symbol at a date, written from the series map
itself: the bar's close at the date, divided by the series' first close,
times 100; zero when the symbol or date is absent. -/
def rebasedValue (smap : SMap) (s : String) (d : ℕ) : ℚ :=
  match lookupDF smap s with
  | none => 0
  | some df =>
    match df.head? with
    | none => 0
    | some b0 =>
      match locBar df d with
      | none => 0
      | some b => b.close / b0.close * 100

/-- The weighted sum over the symbols of the weight map:
Σ rebasedValue(sym, date) * (weight(sym) / 100). -/
def specWeightedSum (smap : SMap) (w : WMap) (d : ℕ) : ℚ :=
  (w.map (fun q => rebasedValue smap q.1 d * ((q.2 : ℚ) / 100))).sum

lemma lookupDF_mapNorm (get : Bar → ℚ) (set : Bar → ℚ → Bar) (smap : SMap) (s : String) :
    lookupDF (mapNorm get set smap) s = (lookupDF smap s).map (normF get set) :=
  lookupDF_map_snd (normF get set) smap s

lemma codeTerm_eq_spec (smap : SMap) (d : ℕ) (q : String × Int)
    (hne : ∀ p ∈ smap, p.2 ≠ [])
    (hq : (lookupDF smap q.1).isSome)
    (hd : ∀ p ∈ mapNorm Bar.close closeSet smap, d ∈ dateSet p.2) :
    codeTerm Bar.close (mapNorm Bar.close closeSet smap) d q
      = rebasedValue smap q.1 d * ((q.2 : ℚ) / 100) := by
  obtain ⟨df0, hdf0⟩ := Option.isSome_iff_exists.mp hq
  have hdfne : df0 ≠ [] := hne _ (lookupDF_mem hdf0)
  obtain ⟨b0, t, rfl⟩ : ∃ b0 t, df0 = b0 :: t := by
    cases df0 with
    | nil => exact absurd rfl hdfne
    | cons a l => exact ⟨a, l, rfl⟩
  have hl : lookupDF (mapNorm Bar.close closeSet smap) q.1
      = some (normF Bar.close closeSet (b0 :: t)) := by
    rw [lookupDF_mapNorm, hdf0]
    rfl
  have hdmem : d ∈ dateSet (normF Bar.close closeSet (b0 :: t)) := hd _ (lookupDF_mem hl)
  have hdmem0 : d ∈ dateSet (b0 :: t) := by
    rw [normF_date Bar.close closeSet closeSet_date] at hdmem
    exact hdmem
  obtain ⟨b, hb, -⟩ := locBar_isSome_of_mem hdmem0
  have hloc : locBar (normF Bar.close closeSet (b0 :: t)) d
      = some (closeSet b (b.close / b0.close * 100)) := by
    show locBar ((b0 :: t).map (fun x => closeSet x (x.close / b0.close * 100))) d = _
    rw [locBar_map (fun x => closeSet_date x _) _ d, hb]
    rfl
  unfold codeTerm rebasedValue
  rw [hl]
  simp only []
  rw [hloc, hdf0]
  simp [hb, closeSet]

/-- C1.  Whenever `calculate_portfolio_performance` succeeds on a series
map of non-empty series and a weight map whose symbols all occur in the
series map, every emitted row's value is the weighted sum
Σ rebasedValue(sym, date) * (weight(sym) / 100) over the weight map. -/
theorem portfolio_value_is_weighted_sum (smap : SMap) (w : WMap) (out : List (ℕ × ℚ))
    (hne : ∀ p ∈ smap, p.2 ≠ [])
    (hw : ∀ q ∈ w, (lookupDF smap q.1).isSome)
    (hok : calculate_portfolio_performance smap w = .ok out) :
    ∀ dv ∈ out, dv.2 = specWeightedSum smap w dv.1 := by
  unfold calculate_portfolio_performance at hok
  obtain ⟨cds, -, hinter, hbr, -⟩ := aggregateOn_ok_inv hok
  intro dv hdv
  obtain ⟨hdmem, hval⟩ := buildRows_mem hbr dv hdv
  rw [Finset.mem_sort] at hdmem
  have hd : ∀ p ∈ mapNorm Bar.close closeSet smap, dv.1 ∈ dateSet p.2 :=
    fun p hp => (mem_interDates hinter).mp hdmem p hp
  have hfound : ∀ q ∈ w, ∃ df b,
      lookupDF (mapNorm Bar.close closeSet smap) q.1 = some df ∧ locBar df dv.1 = some b := by
    intro q hq
    obtain ⟨df0, hdf0⟩ := Option.isSome_iff_exists.mp (hw q hq)
    have hl : lookupDF (mapNorm Bar.close closeSet smap) q.1
        = some (normF Bar.close closeSet df0) := by
      rw [lookupDF_mapNorm, hdf0]
      rfl
    obtain ⟨b, hb, -⟩ := locBar_isSome_of_mem (hd _ (lookupDF_mem hl))
    exact ⟨normF Bar.close closeSet df0, b, hl, hb⟩
  rw [weightedValueAux_ok Bar.close _ dv.1 w hfound 0] at hval
  have hv2 : dv.2 = 0 + (w.map (codeTerm Bar.close (mapNorm Bar.close closeSet smap) dv.1)).sum :=
    (Except.ok.inj hval).symm
  rw [hv2, zero_add, specWeightedSum]
  congr 1
  apply List.map_congr_left
  intro q hq
  exact codeTerm_eq_spec smap dv.1 q hne (hw q hq) hd

/-- Bar with a close, a volume and a date; the unused columns are zero. -/
def mkBar (c v : ℚ) (d : ℕ) : Bar := ⟨0, 0, 0, c, v, 0, d⟩

/-- Series A of the spec's two-symbol test case: closes [100, 200]. -/
def exA : List Bar := [mkBar 100 0 1, mkBar 200 0 2]

/-- Series B of the spec's two-symbol test case: closes [50, 50]. -/
def exB : List Bar := [mkBar 50 0 1, mkBar 50 0 2]

/-- The spec's two-symbol series map. -/
def exSmap : SMap := [("A", exA), ("B", exB)]

/-- The spec's weight map {A: 50, B: 50}. -/
def exW : WMap := [("A", 50), ("B", 50)]

/-- The normalized dictionary of the two-symbol case. -/
def exN : SMap :=
  [("A", [mkBar 100 0 1, mkBar 200 0 2]), ("B", [mkBar 100 0 1, mkBar 100 0 2])]

/-- Witness for C1, which is also the spec's concrete test case: with
series A = [100, 200] and B = [50, 50] and weights {A: 50, B: 50} the
composite is [100, 150], and each composite value is the weighted sum. -/
theorem portfolio_value_is_weighted_sum_witness :
    calculate_portfolio_performance exSmap exW = .ok [(1, 100), (2, 150)] ∧
      ∀ dv ∈ [((1 : ℕ), (100 : ℚ)), (2, 150)], dv.2 = specWeightedSum exSmap exW dv.1 := by
  have h1 : normalizeAll Bar.close closeSet exSmap = .ok exN := by
    norm_num [exSmap, exA, exB, exN, normalizeAll_cons, normalizeField, mkBar, closeSet]
  have h2 : interDates exN = some ({1, 2} : Finset ℕ) := by decide
  have h3 : Finset.sort (· ≤ ·) ({1, 2} : Finset ℕ) = [1, 2] := by
    apply sort_eq_of <;> decide
  have hok : calculate_portfolio_performance exSmap exW = .ok [(1, 100), (2, 150)] := by
    unfold calculate_portfolio_performance aggregateOn restOfAggregate
    rw [h1]
    simp only []
    rw [h2]
    simp only []
    rw [h3]
    simp +decide only [buildRows, weightedValueAux, lookupDF_cons, locBar_cons, exN, exW, mkBar]
    norm_num
    simp
  exact ⟨hok, portfolio_value_is_weighted_sum exSmap exW [(1, 100), (2, 150)]
    (by decide) (by decide) hok⟩

/-- C2.  Whenever `calculate_portfolio_performance` produces an output,
its date column is exactly the set of dates common to all input series —
never a superset — listed in ascending (hence duplicate-free) order. -/
theorem portfolio_dates_are_common_dates (smap : SMap) (w : WMap) (out : List (ℕ × ℚ))
    (hok : calculate_portfolio_performance smap w = .ok out) :
    (∀ d : ℕ, d ∈ out.map Prod.fst ↔ ∀ p ∈ smap, d ∈ dateSet p.2) ∧
      (out.map Prod.fst).Sorted (· < ·) := by
  unfold calculate_portfolio_performance at hok
  obtain ⟨cds, -, hinter, hbr, -⟩ := aggregateOn_ok_inv hok
  have hfst : out.map Prod.fst = Finset.sort (· ≤ ·) cds := buildRows_map_fst hbr
  rw [interDates_mapNorm Bar.close closeSet closeSet_date smap] at hinter
  constructor
  · intro d
    rw [hfst, Finset.mem_sort]
    exact mem_interDates hinter
  · rw [hfst]
    exact Finset.sort_sorted_lt cds

/-- Two series sharing exactly one date (date 2). -/
def exC : SMap := [("A", [mkBar 10 0 1, mkBar 20 0 2]), ("B", [mkBar 5 0 2, mkBar 5 0 3])]

/-- Weight map for the one-common-date case. -/
def exCW : WMap := [("A", 100)]

/-- Normalized dictionary of the one-common-date case. -/
def exCN : SMap :=
  [("A", [mkBar 100 0 1, mkBar 200 0 2]), ("B", [mkBar 100 0 2, mkBar 100 0 3])]

/-- Witness for C2: two series sharing exactly one common date produce a
composite with exactly one entry, whose date column is the intersection. -/
theorem portfolio_dates_are_common_dates_witness :
    calculate_portfolio_performance exC exCW = .ok [(2, 200)] ∧
      ((∀ d : ℕ, d ∈ [((2 : ℕ), (200 : ℚ))].map Prod.fst ↔ ∀ p ∈ exC, d ∈ dateSet p.2) ∧
        ([((2 : ℕ), (200 : ℚ))].map Prod.fst).Sorted (· < ·)) := by
  have h1 : normalizeAll Bar.close closeSet exC = .ok exCN := by
    norm_num [exC, exCN, normalizeAll_cons, normalizeField, mkBar, closeSet]
  have h2 : interDates exCN = some ({2} : Finset ℕ) := by decide
  have h3 : Finset.sort (· ≤ ·) ({2} : Finset ℕ) = [2] := by
    apply sort_eq_of <;> decide
  have hok : calculate_portfolio_performance exC exCW = .ok [(2, 200)] := by
    unfold calculate_portfolio_performance aggregateOn restOfAggregate
    rw [h1]
    simp only []
    rw [h2]
    simp only []
    rw [h3]
    simp +decide only [buildRows, weightedValueAux, lookupDF_cons, locBar_cons, exCN, exCW, mkBar]
    norm_num
  exact ⟨hok, portfolio_dates_are_common_dates exC exCW [(2, 200)] hok⟩

/-- A one-bar series whose close at its first (only) date is zero. -/
def exZ : List Bar := [mkBar 0 0 5]

/-- Counterexample to C3 as stated: rebasing a non-empty series whose
first close is zero does not give 100 at the first date (Python computes
0/0 → NaN there; in the rational model the value is 0).  The series
`exZ` is sorted and non-empty, yet the rebased first value is 0 ≠ 100. -/
theorem rebase_cex_zero_first_value :
    normalizeField Bar.close closeSet exZ = .ok [mkBar 0 0 5] ∧
      (mkBar 0 0 5).close ≠ 100 := by
  constructor
  · norm_num [normalizeField, exZ, mkBar, closeSet]
  · norm_num [mkBar]

/-- C3, amended.  For a non-empty series sorted ascending by date whose
first close is nonzero, the rebased series is the series with every close
divided by the first close and multiplied by 100, and the value at the
first date is exactly 100. -/
theorem rebase_first_value_100 (b0 : Bar) (t : List Bar)
    (_hsorted : ((b0 :: t).map Bar.date).Sorted (· < ·))
    (hnz : b0.close ≠ 0) :
    normalizeField Bar.close closeSet (b0 :: t) =
        .ok ((b0 :: t).map (fun b => closeSet b (b.close / b0.close * 100))) ∧
      (normF Bar.close closeSet (b0 :: t)).head? = some (closeSet b0 100) := by
  refine ⟨rfl, ?_⟩
  show some (closeSet b0 (b0.close / b0.close * 100)) = some (closeSet b0 100)
  rw [div_self hnz, one_mul]

/-- Witness for C3 at the series [50, 75] over dates [1, 2]. -/
theorem rebase_first_value_100_witness :
    normalizeField Bar.close closeSet (mkBar 50 0 1 :: [mkBar 75 0 2]) =
        .ok ((mkBar 50 0 1 :: [mkBar 75 0 2]).map
          (fun b => closeSet b (b.close / (mkBar 50 0 1).close * 100))) ∧
      (normF Bar.close closeSet (mkBar 50 0 1 :: [mkBar 75 0 2])).head? =
        some (closeSet (mkBar 50 0 1) 100) :=
  rebase_first_value_100 (mkBar 50 0 1) [mkBar 75 0 2] (by decide) (by norm_num [mkBar])

/-- Two one-bar series with disjoint dates. -/
def exD : SMap := [("A", [mkBar 1 2 1]), ("B", [mkBar 3 4 2])]

/-- Weight map for the disjoint-date case. -/
def exDW : WMap := [("A", 50), ("B", 50)]

/-- Normalized close dictionary of the disjoint-date case. -/
def exDNc : SMap := [("A", [mkBar 100 2 1]), ("B", [mkBar 100 4 2])]

/-- Normalized volume dictionary of the disjoint-date case. -/
def exDNv : SMap := [("A", [mkBar 1 100 1]), ("B", [mkBar 3 100 2])]

/-- C4 fails on the code: on series with disjoint date sets the common
set is empty, the row list stays empty, and
`pd.DataFrame([]).set_index('date')` raises a KeyError; neither function
returns an empty CompositeSeries. -/
theorem disjoint_dates_raise_keyerror :
    calculate_portfolio_performance exD exDW = .error .keyErrorSetIndex ∧
      calculate_combined_volume exD exDW = .error .keyErrorSetIndex := by
  have h3 : Finset.sort (· ≤ ·) (∅ : Finset ℕ) = [] := Finset.sort_empty _
  constructor
  · have h1 : normalizeAll Bar.close closeSet exD = .ok exDNc := by
      norm_num [exD, exDNc, normalizeAll_cons, normalizeField, mkBar, closeSet]
    have h2 : interDates exDNc = some (∅ : Finset ℕ) := by decide
    unfold calculate_portfolio_performance aggregateOn restOfAggregate
    rw [h1]
    simp only []
    rw [h2]
    simp only []
    rw [h3]
    simp
  · have h1 : normalizeAll Bar.volume volumeSet exD = .ok exDNv := by
      norm_num [exD, exDNv, normalizeAll_cons, normalizeField, mkBar, volumeSet]
    have h2 : interDates exDNv = some (∅ : Finset ℕ) := by decide
    unfold calculate_combined_volume aggregateOn restOfAggregate
    rw [h1]
    simp only []
    rw [h2]
    simp only []
    rw [h3]
    simp

/-- A series map holding one zero-bar series. -/
def exE : SMap := [("A", [])]

/-- Weight map for the zero-bar case. -/
def exEW : WMap := [("A", 100)]

/-- C5 fails on the code: a zero-bar input series makes both aggregator
functions fault with the positional-indexer fault of
`df[field].iloc[0]` (an IndexError), not with a defined
"cannot rebase empty series" error (no such error kind exists in the
program) and not with a silent NaN. -/
theorem empty_series_raises_iloc_indexerror :
    calculate_portfolio_performance exE exEW = .error .indexOutOfBounds ∧
      calculate_combined_volume exE exEW = .error .indexOutOfBounds :=
  ⟨rfl, rfl⟩

@[simp] lemma normalizeField_cons (get : Bar → ℚ) (set : Bar → ℚ → Bar)
    (b0 : Bar) (t : List Bar) :
    normalizeField get set (b0 :: t) =
      .ok ((b0 :: t).map (fun b => set b (get b / get b0 * 100))) := rfl

lemma weightedValueAux_append (get : Bar → ℚ) (ndfs : SMap) (d : ℕ)
    (w1 w2 : WMap) : ∀ acc : ℚ,
    weightedValueAux get ndfs d acc (w1 ++ w2) =
      match weightedValueAux get ndfs d acc w1 with
      | .error e => .error e
      | .ok v => weightedValueAux get ndfs d v w2 := by
  induction w1 with
  | nil => intro acc; rfl
  | cons q rest ih =>
    intro acc
    rw [List.cons_append, weightedValueAux_cons, weightedValueAux_cons]
    cases lookupDF ndfs q.1 with
    | none => rfl
    | some df =>
      simp only []
      cases locBar df d with
      | none => rfl
      | some b => exact ih _

lemma weightedValueAux_append_zero (get : Bar → ℚ) (ndfs : SMap) (d : ℕ)
    (w : WMap) (sym : String)
    (hfound : ∃ df b, lookupDF ndfs sym = some df ∧ locBar df d = some b)
    (acc : ℚ) :
    weightedValueAux get ndfs d acc (w ++ [(sym, 0)]) =
      weightedValueAux get ndfs d acc w := by
  rw [weightedValueAux_append]
  obtain ⟨df, b, h1, h2⟩ := hfound
  cases weightedValueAux get ndfs d acc w with
  | error e => rfl
  | ok v =>
    simp only []
    rw [weightedValueAux_cons, h1]
    simp [h2]

lemma buildRows_append_zero (get : Bar → ℚ) (ndfs : SMap) (w : WMap)
    (sym : String) (ds : List ℕ)
    (hfound : ∀ d ∈ ds, ∃ df b, lookupDF ndfs sym = some df ∧ locBar df d = some b) :
    buildRows get ndfs (w ++ [(sym, 0)]) ds = buildRows get ndfs w ds := by
  induction ds with
  | nil => rfl
  | cons d rest ih =>
    rw [buildRows_cons, buildRows_cons,
      weightedValueAux_append_zero get ndfs d w sym (hfound d (by simp)) 0,
      ih (fun d' hd' => hfound d' (by simp [hd']))]

/-- C6.  A symbol that occurs in the series map but not in the weight map
is silently excluded: the aggregator's result — including the error
behaviour — is identical to what it produces when that symbol is added to
the weight map with weight 0. -/
theorem missing_weight_symbol_acts_as_zero (smap : SMap) (w : WMap) (sym : String)
    (hsym : (lookupDF smap sym).isSome)
    (_habs : lookupW w sym = none) :
    calculate_portfolio_performance smap w =
      calculate_portfolio_performance smap (w ++ [(sym, 0)]) := by
  unfold calculate_portfolio_performance aggregateOn
  cases h1 : normalizeAll Bar.close closeSet smap with
  | error e => rfl
  | ok ndfs =>
    simp only []
    obtain ⟨-, rfl⟩ := (normalizeAll_ok_iff Bar.close closeSet smap ndfs).mp h1
    unfold restOfAggregate
    cases h2 : interDates (mapNorm Bar.close closeSet smap) with
    | none => rfl
    | some cds =>
      simp only []
      have hf : ∀ d ∈ Finset.sort (· ≤ ·) cds, ∃ df b,
          lookupDF (mapNorm Bar.close closeSet smap) sym = some df ∧
            locBar df d = some b := by
        intro d hd
        rw [Finset.mem_sort] at hd
        obtain ⟨df0, hdf0⟩ := Option.isSome_iff_exists.mp hsym
        have hl : lookupDF (mapNorm Bar.close closeSet smap) sym
            = some (normF Bar.close closeSet df0) := by
          rw [lookupDF_mapNorm, hdf0]
          rfl
        obtain ⟨b, hb, -⟩ :=
          locBar_isSome_of_mem ((mem_interDates h2).mp hd _ (lookupDF_mem hl))
        exact ⟨normF Bar.close closeSet df0, b, hl, hb⟩
      rw [buildRows_append_zero Bar.close (mapNorm Bar.close closeSet smap) w sym
        (Finset.sort (· ≤ ·) cds) hf]

/-- Witness for C6: symbol B is in the series map but not in the weight
map {A: 100}; the composite equals the one computed with B's weight set
to 0. -/
theorem missing_weight_symbol_acts_as_zero_witness :
    calculate_portfolio_performance exSmap [("A", 100)] =
      calculate_portfolio_performance exSmap ([("A", 100)] ++ [("B", 0)]) :=
  missing_weight_symbol_acts_as_zero exSmap [("A", 100)] "B" (by decide) (by decide)

/-- Uniform scaling of the close column by a scalar k. -/
def scaleClose (k : ℚ) (df : List Bar) : List Bar :=
  df.map (fun b => { b with close := k * b.close })

/-- C8.  Rebasing is scale-invariant: multiplying every close of a series
by a positive scalar k does not change the rebased series (on the empty
series both sides fault identically). -/
theorem rebase_scale_invariant (k : ℚ) (df : List Bar) (hk : 0 < k) :
    normalizeField Bar.close closeSet (scaleClose k df) =
      normalizeField Bar.close closeSet df := by
  cases df with
  | nil => rfl
  | cons b0 t =>
    rw [show scaleClose k (b0 :: t) =
        ({ b0 with close := k * b0.close }) :: scaleClose k t from rfl,
      normalizeField_cons, normalizeField_cons]
    congr 1
    rw [show ({ b0 with close := k * b0.close }) :: scaleClose k t =
        (b0 :: t).map (fun b => { b with close := k * b.close }) from rfl,
      List.map_map]
    apply List.map_congr_left
    intro b _
    show closeSet b (k * b.close / (k * b0.close) * 100) =
      closeSet b (b.close / b0.close * 100)
    rw [mul_div_mul_left _ _ (ne_of_gt hk)]

/-- Witness for C8 at k = 2 on the series [50, 75]. -/
theorem rebase_scale_invariant_witness :
    normalizeField Bar.close closeSet (scaleClose 2 [mkBar 50 0 1, mkBar 75 0 2]) =
      normalizeField Bar.close closeSet [mkBar 50 0 1, mkBar 75 0 2] :=
  rebase_scale_invariant 2 [mkBar 50 0 1, mkBar 75 0 2] (by norm_num)

/-- A raw payload with two bars carrying the same timestamp. -/
def exDup : List RawBar := [⟨1, 1, 1, 1, 1, 1, 7⟩, ⟨2, 2, 2, 2, 2, 2, 7⟩]

/-- Counterexample to C7 as stated: the builder sorts but does not
deduplicate, so a payload with two bars at the same timestamp yields a
series whose dates are not unique. -/
theorem builder_cex_duplicate_dates :
    ¬ ((process_stock_data exDup).map Bar.date).Nodup := by
  intro hnd
  have hperm : ((process_stock_data exDup).map Bar.date).Perm ((exDup.map toBar).map Bar.date) :=
    (List.mergeSort_perm (exDup.map toBar) _).map Bar.date
  have : ((exDup.map toBar).map Bar.date).Nodup := hperm.nodup_iff.mp hnd
  rw [show (exDup.map toBar).map Bar.date = [7, 7] from rfl] at this
  simp at this

/-- C7, amended.  For every raw payload and every input order, the
builder's output is sorted ascending by date; if the payload's timestamps
are pairwise distinct, the output dates are additionally unique (the
builder itself never deduplicates). -/
theorem builder_sorted_and_unique (results : List RawBar) :
    ((process_stock_data results).map Bar.date).Sorted (· ≤ ·) ∧
      ((results.map RawBar.t).Nodup → ((process_stock_data results).map Bar.date).Nodup) := by
  constructor
  · have h := @List.sorted_mergeSort Bar (fun a b : Bar => a.date ≤ b.date)
      (fun a b c hab hbc => by
        simp only [decide_eq_true_eq] at hab hbc ⊢
        exact le_trans hab hbc)
      (fun a b => by
        simp only [Bool.or_eq_true, decide_eq_true_eq]
        exact Nat.le_total a.date b.date)
      (results.map toBar)
    rw [List.Sorted, List.pairwise_map]
    exact h.imp (fun hab => by simpa using hab)
  · intro hnd
    have hperm : ((process_stock_data results).map Bar.date).Perm ((results.map toBar).map Bar.date) :=
      (List.mergeSort_perm (results.map toBar) _).map Bar.date
    rw [hperm.nodup_iff, List.map_map,
      show Bar.date ∘ toBar = RawBar.t from rfl]
    exact hnd

/-- A raw payload given in descending date order. -/
def exRev : List RawBar := [⟨0, 0, 0, 9, 3, 0, 2⟩, ⟨0, 0, 0, 8, 4, 0, 1⟩]

/-- Witness for C7 on a payload arriving in descending order with
distinct timestamps: the built series is sorted and has unique dates. -/
theorem builder_sorted_and_unique_witness :
    ((process_stock_data exRev).map Bar.date).Nodup ∧
      ((process_stock_data exRev).map Bar.date).Sorted (· ≤ ·) :=
  ⟨(builder_sorted_and_unique exRev).2 (by decide),
    (builder_sorted_and_unique exRev).1⟩

/-- Restriction of a series to a set of dates, keeping the original
order. -/
def restrictTo (cds : Finset ℕ) (df : List Bar) : List Bar :=
  df.filter (fun b => b.date ∈ cds)

/-- Modelled from the spec: the alternative evaluation order of §4.3's
design rationale — compute the common-date intersection of the raw
series first, restrict every series to those dates, and only then run
`calculate_portfolio_performance` (whose rebasing then anchors at each
restricted series' first remaining date). -/
def intersectFirstPortfolio (smap : SMap) (w : WMap) :
    Except AggError (List (ℕ × ℚ)) :=
  match interDates smap with
  | none => .error .typeErrorNoneIter
  | some cds =>
    calculate_portfolio_performance (smap.map (fun p => (p.1, restrictTo cds p.2))) w

lemma restrictTo_cons_pos {cds : Finset ℕ} {b : Bar} (t : List Bar)
    (hb : b.date ∈ cds) : restrictTo cds (b :: t) = b :: restrictTo cds t := by
  simp [restrictTo, List.filter_cons, hb]

lemma normF_restrictTo_comm (get : Bar → ℚ) (set : Bar → ℚ → Bar)
    (hdate : ∀ b x, (set b x).date = b.date) {cds : Finset ℕ} {b0 : Bar}
    (t : List Bar) (hb : b0.date ∈ cds) :
    normF get set (restrictTo cds (b0 :: t)) =
      restrictTo cds (normF get set (b0 :: t)) := by
  rw [restrictTo_cons_pos t hb]
  show (b0 :: restrictTo cds t).map (fun b => set b (get b / get b0 * 100)) =
    restrictTo cds ((b0 :: t).map (fun b => set b (get b / get b0 * 100)))
  rw [List.map_cons, List.map_cons,
    restrictTo_cons_pos (t.map (fun b => set b (get b / get b0 * 100)))
      (show (set b0 (get b0 / get b0 * 100)).date ∈ cds from (hdate b0 _).symm ▸ hb)]
  congr 1
  unfold restrictTo
  rw [List.filter_map]
  congr 1
  apply List.filter_congr
  intro b _
  simp [Function.comp, hdate]

lemma dateSet_restrictTo (cds : Finset ℕ) (df : List Bar) :
    dateSet (restrictTo cds df) = dateSet df ∩ cds := by
  ext x
  simp only [dateSet, restrictTo, List.mem_toFinset, List.mem_map, List.mem_filter,
    Finset.mem_inter, decide_eq_true_eq]
  constructor
  · rintro ⟨b, ⟨h1, h2⟩, rfl⟩
    exact ⟨⟨b, h1, rfl⟩, h2⟩
  · rintro ⟨⟨b, h1, rfl⟩, h2⟩
    exact ⟨b, ⟨h1, h2⟩, rfl⟩

lemma foldl_inter_const (cds : Finset ℕ) (l : SMap) : ∀ a : Finset ℕ,
    l.foldl (fun acc q => acc ∩ (dateSet q.2 ∩ cds)) (a ∩ cds) =
      (l.foldl (fun acc q => acc ∩ dateSet q.2) a) ∩ cds := by
  induction l with
  | nil => intro a; rfl
  | cons p rest ih =>
    intro a
    rw [List.foldl_cons, List.foldl_cons,
      show (a ∩ cds) ∩ (dateSet p.2 ∩ cds) = (a ∩ dateSet p.2) ∩ cds by
        ext x; simp only [Finset.mem_inter]; tauto]
    exact ih (a ∩ dateSet p.2)

lemma interDates_restrictTo {smap : SMap} {cds : Finset ℕ}
    (hc : interDates smap = some cds) :
    interDates (smap.map (fun p => (p.1, restrictTo cds p.2))) = some cds := by
  cases smap with
  | nil => simp [interDates] at hc
  | cons p rest =>
    unfold interDates at hc ⊢
    simp only [List.map_cons, List.foldl_map, Option.some.injEq] at hc ⊢
    have hfun : (fun (acc : Finset ℕ) (q : String × List Bar) =>
        acc ∩ dateSet (restrictTo cds q.2)) =
          fun acc q => acc ∩ (dateSet q.2 ∩ cds) := by
      funext acc q
      rw [dateSet_restrictTo]
    rw [hfun, dateSet_restrictTo, foldl_inter_const, hc, Finset.inter_self]

lemma locBar_restrictTo {cds : Finset ℕ} {d : ℕ} (hd : d ∈ cds) (df : List Bar) :
    locBar (restrictTo cds df) d = locBar df d := by
  induction df with
  | nil => rfl
  | cons b t ih =>
    by_cases hbc : b.date ∈ cds
    · rw [restrictTo_cons_pos t hbc, locBar_cons, locBar_cons, ih]
    · have hbd : b.date ≠ d := fun h => hbc (h ▸ hd)
      rw [show restrictTo cds (b :: t) = restrictTo cds t by
          simp [restrictTo, List.filter_cons, hbc],
        locBar_cons, if_neg hbd, ih]

lemma weightedValueAux_restrictTo (get : Bar → ℚ) (ndfs : SMap) {cds : Finset ℕ}
    {d : ℕ} (hd : d ∈ cds) (w : WMap) : ∀ acc : ℚ,
    weightedValueAux get (ndfs.map (fun p => (p.1, restrictTo cds p.2))) d acc w =
      weightedValueAux get ndfs d acc w := by
  induction w with
  | nil => intro acc; rfl
  | cons q rest ih =>
    intro acc
    rw [weightedValueAux_cons, weightedValueAux_cons,
      lookupDF_map_snd (restrictTo cds) ndfs q.1]
    cases lookupDF ndfs q.1 with
    | none => rfl
    | some df =>
      simp only [Option.map_some', locBar_restrictTo hd]
      cases locBar df d with
      | none => rfl
      | some b => exact ih _

lemma buildRows_restrictTo (get : Bar → ℚ) (ndfs : SMap) (w : WMap)
    {cds : Finset ℕ} (ds : List ℕ) (hds : ∀ d ∈ ds, d ∈ cds) :
    buildRows get (ndfs.map (fun p => (p.1, restrictTo cds p.2))) w ds =
      buildRows get ndfs w ds := by
  induction ds with
  | nil => rfl
  | cons d rest ih =>
    rw [buildRows_cons, buildRows_cons,
      weightedValueAux_restrictTo get ndfs (hds d (by simp)) w 0,
      ih (fun d' hd' => hds d' (by simp [hd']))]

/-- Two series where B lacks A's first date: the common set is {2}, but
series A is rebased at its own first date 1. -/
def exI : SMap := [("A", [mkBar 100 0 1, mkBar 200 0 2]), ("B", [mkBar 50 0 2])]

/-- Weight map for the order-of-operations counterexample. -/
def exIW : WMap := [("A", 100)]

/-- Normalized dictionary of `exI` under the implemented order. -/
def exIN : SMap := [("A", [mkBar 100 0 1, mkBar 200 0 2]), ("B", [mkBar 100 0 2])]

/-- The restriction of `exI` to the common date set {2}. -/
def exIR : SMap := [("A", [mkBar 200 0 2]), ("B", [mkBar 50 0 2])]

/-- Normalized dictionary of the restricted series. -/
def exIRN : SMap := [("A", [mkBar 100 0 2]), ("B", [mkBar 100 0 2])]

/-- Counterexample to C9 as stated: intersecting before rebasing moves
series A's rebasing anchor from date 1 (its own first date) to date 2
(the first common date), so the two orders give different composites —
200 versus 100 at date 2. -/
theorem intersect_first_cex :
    calculate_portfolio_performance exI exIW = .ok [(2, 200)] ∧
      intersectFirstPortfolio exI exIW = .ok [(2, 100)] := by
  have hsort : Finset.sort (· ≤ ·) ({2} : Finset ℕ) = [2] := by
    apply sort_eq_of <;> decide
  constructor
  · have h1 : normalizeAll Bar.close closeSet exI = .ok exIN := by
      norm_num [exI, exIN, normalizeAll_cons, normalizeField, mkBar, closeSet]
    have h2 : interDates exIN = some ({2} : Finset ℕ) := by decide
    unfold calculate_portfolio_performance aggregateOn restOfAggregate
    rw [h1]
    simp only []
    rw [h2]
    simp only []
    rw [hsort]
    simp +decide only [buildRows, weightedValueAux, lookupDF_cons, locBar_cons, exIN, exIW, mkBar]
    norm_num
  · have h0 : interDates exI = some ({2} : Finset ℕ) := by decide
    have hr : exI.map (fun p => (p.1, restrictTo ({2} : Finset ℕ) p.2)) = exIR := by decide
    have h1 : normalizeAll Bar.close closeSet exIR = .ok exIRN := by
      norm_num [exIR, exIRN, normalizeAll_cons, normalizeField, mkBar, closeSet]
    have h2 : interDates exIRN = some ({2} : Finset ℕ) := by decide
    unfold intersectFirstPortfolio
    rw [h0]
    simp only []
    rw [hr]
    unfold calculate_portfolio_performance aggregateOn restOfAggregate
    rw [h1]
    simp only []
    rw [h2]
    simp only []
    rw [hsort]
    simp +decide only [buildRows, weightedValueAux, lookupDF_cons, locBar_cons, exIRN, exIW, mkBar]
    norm_num

/-- C9, amended.  Intersecting before rebasing agrees with the
implemented order (rebase first, then intersect) exactly under the extra
hypothesis the spec's argument implicitly uses: every series' first date
must itself lie in the common-date intersection (so restriction does not
move any rebasing anchor).  Under that hypothesis the two evaluation
orders produce identical results. -/
theorem intersect_first_equivalent (smap : SMap) (w : WMap) (cds : Finset ℕ)
    (hc : interDates smap = some cds)
    (hfirst : ∀ p ∈ smap, ∃ b t, p.2 = b :: t ∧ b.date ∈ cds) :
    intersectFirstPortfolio smap w = calculate_portfolio_performance smap w := by
  unfold intersectFirstPortfolio
  rw [hc]
  simp only []
  unfold calculate_portfolio_performance aggregateOn
  have hne : ∀ p ∈ smap, p.2 ≠ [] := by
    intro p hp
    obtain ⟨b, t, h, -⟩ := hfirst p hp
    rw [h]
    simp
  have hneR : ∀ p ∈ smap.map (fun p => (p.1, restrictTo cds p.2)), p.2 ≠ [] := by
    intro p hp
    rw [List.mem_map] at hp
    obtain ⟨q, hq, rfl⟩ := hp
    obtain ⟨b, t, hq2, hbc⟩ := hfirst q hq
    simp only [hq2, restrictTo_cons_pos t hbc]
    simp
  rw [(normalizeAll_ok_iff Bar.close closeSet _ _).mpr ⟨hneR, rfl⟩,
    (normalizeAll_ok_iff Bar.close closeSet _ _).mpr ⟨hne, rfl⟩]
  simp only []
  have hcomm : mapNorm Bar.close closeSet (smap.map (fun p => (p.1, restrictTo cds p.2)))
      = (mapNorm Bar.close closeSet smap).map (fun p => (p.1, restrictTo cds p.2)) := by
    unfold mapNorm
    rw [List.map_map, List.map_map]
    apply List.map_congr_left
    intro p hp
    obtain ⟨b, t, h, hbc⟩ := hfirst p hp
    simp only [Function.comp]
    rw [h]
    exact congrArg (fun df => (p.1, df))
      (normF_restrictTo_comm Bar.close closeSet closeSet_date t hbc)
  rw [hcomm]
  unfold restOfAggregate
  have hiN : interDates (mapNorm Bar.close closeSet smap) = some cds := by
    rw [interDates_mapNorm Bar.close closeSet closeSet_date, hc]
  have hiR : interDates ((mapNorm Bar.close closeSet smap).map
      (fun p => (p.1, restrictTo cds p.2))) = some cds := interDates_restrictTo hiN
  rw [hiR, hiN]
  simp only []
  rw [buildRows_restrictTo Bar.close (mapNorm Bar.close closeSet smap) w
    (Finset.sort (· ≤ ·) cds) (fun d hd => (Finset.mem_sort (· ≤ ·)).mp hd)]

/-- Two series sharing the same first date 1: the amended C9 applies. -/
def exJ : SMap := [("A", [mkBar 100 0 1, mkBar 200 0 2]), ("B", [mkBar 50 0 1])]

/-- Witness for the amended C9 on series that share their first date:
both evaluation orders agree. -/
theorem intersect_first_equivalent_witness :
    intersectFirstPortfolio exJ exIW = calculate_portfolio_performance exJ exIW :=
  intersect_first_equivalent exJ exIW {1} (by decide) (by
    intro p hp
    rcases List.mem_cons.mp hp with h | h
    · exact ⟨mkBar 100 0 1, [mkBar 200 0 2], by rw [h], by decide⟩
    · rcases List.mem_cons.mp h with h' | h'
      · exact ⟨mkBar 50 0 1, [], by rw [h'], by decide⟩
      · simp [exJ] at h')

/-! A store-level embedding of the two aggregator functions, making the
Python object identities explicit so the frame property "no input
DataFrame is mutated" can be stated.  A `Store` is the heap of live
DataFrames; `stock_data_dict` becomes a map from symbols to references
into the store.  `normalized_df = df.copy()` allocates a fresh frame at
the next free reference (`st.length`), and the subsequent column
assignment `normalized_df[field] = (df[field] / df[field].iloc[0]) * 100`
overwrites only that fresh frame.  The remainder of each function only
reads the store. -/

/-- The heap of DataFrame objects. -/
abbrev Store := List (List Bar)

/-- Dereference a DataFrame (a dangling reference reads an empty frame). -/
def getRef (st : Store) (r : ℕ) : List Bar := st.getD r []

/-- The normalization loop of `pol.py` lines 44-48 at store level: copy
each frame, overwrite the copy's chosen column, and record the copy's
reference under the symbol.  The store is returned even when the loop
faults, so the heap after an exception can be observed. -/
def normalizeLoopStore (get : Bar → ℚ) (set : Bar → ℚ → Bar) :
    Store → List (String × ℕ) → Store × Except AggError (List (String × ℕ))
  | st, [] => (st, .ok [])
  | st, (sym, r) :: rest =>
    match getRef st r with
    | [] => (st ++ [[]], .error .indexOutOfBounds)
    | b0 :: t =>
      match normalizeLoopStore get set
          ((st ++ [b0 :: t]).set st.length
            ((b0 :: t).map (fun b => set b (get b / get b0 * 100)))) rest with
      | (st3, .error e) => (st3, .error e)
      | (st3, .ok nd) => (st3, .ok ((sym, st.length) :: nd))

/-- Store-level shared shape of both aggregator functions: run the
normalization loop, then run the (read-only) date intersection, sorting
and weighted accumulation on the dereferenced normalized frames. -/
def aggregateOnStore (get : Bar → ℚ) (set : Bar → ℚ → Bar) (st : Store)
    (dict : List (String × ℕ)) (w : WMap) :
    Store × Except AggError (List (ℕ × ℚ)) :=
  match normalizeLoopStore get set st dict with
  | (st1, .error e) => (st1, .error e)
  | (st1, .ok nrefs) =>
    (st1, restOfAggregate get (nrefs.map (fun p => (p.1, getRef st1 p.2))) w)

/-- `calculate_portfolio_performance` at store level. -/
def calculate_portfolio_performance_store (st : Store) (dict : List (String × ℕ))
    (w : WMap) : Store × Except AggError (List (ℕ × ℚ)) :=
  aggregateOnStore Bar.close closeSet st dict w

/-- `calculate_combined_volume` at store level. -/
def calculate_combined_volume_store (st : Store) (dict : List (String × ℕ))
    (w : WMap) : Store × Except AggError (List (ℕ × ℚ)) :=
  aggregateOnStore Bar.volume volumeSet st dict w

@[simp] lemma normalizeLoopStore_nil (get : Bar → ℚ) (set : Bar → ℚ → Bar)
    (st : Store) : normalizeLoopStore get set st [] = (st, .ok []) := rfl

lemma normalizeLoopStore_cons (get : Bar → ℚ) (set : Bar → ℚ → Bar)
    (st : Store) (sym : String) (r : ℕ) (rest : List (String × ℕ)) :
    normalizeLoopStore get set st ((sym, r) :: rest) =
      match getRef st r with
      | [] => (st ++ [[]], .error .indexOutOfBounds)
      | b0 :: t =>
        match normalizeLoopStore get set
            ((st ++ [b0 :: t]).set st.length
              ((b0 :: t).map (fun b => set b (get b / get b0 * 100)))) rest with
        | (st3, .error e) => (st3, .error e)
        | (st3, .ok nd) => (st3, .ok ((sym, st.length) :: nd)) := rfl

lemma getRef_append_left {st : Store} {r : ℕ} (v : List Bar) (hr : r < st.length) :
    getRef (st ++ [v]) r = getRef st r := by
  unfold getRef
  exact List.getD_append st [v] [] r hr

lemma getRef_set_ne {st : Store} {r r' : ℕ} (v : List Bar) (h : r' ≠ r) :
    getRef (st.set r' v) r = getRef st r := by
  unfold getRef
  rw [List.getD_eq_getElem?_getD, List.getD_eq_getElem?_getD, List.getElem?_set_ne h]

lemma normalizeLoopStore_preserves (get : Bar → ℚ) (set : Bar → ℚ → Bar)
    (dict : List (String × ℕ)) : ∀ st : Store,
    st.length ≤ (normalizeLoopStore get set st dict).1.length ∧
      ∀ r < st.length, getRef (normalizeLoopStore get set st dict).1 r = getRef st r := by
  induction dict with
  | nil => intro st; exact ⟨le_refl _, fun r _ => rfl⟩
  | cons p rest ih =>
    intro st
    obtain ⟨sym, r'⟩ := p
    rw [normalizeLoopStore_cons]
    cases hdf : getRef st r' with
    | nil =>
      simp only []
      refine ⟨by simp, fun r hr => getRef_append_left [] hr⟩
    | cons b0 t =>
      simp only []
      have hst2len : ((st ++ [b0 :: t]).set st.length
          ((b0 :: t).map (fun b => set b (get b / get b0 * 100)))).length
            = st.length + 1 := by
        rw [List.length_set, List.length_append]
        rfl
      obtain ⟨h1, h2⟩ := ih ((st ++ [b0 :: t]).set st.length
        ((b0 :: t).map (fun b => set b (get b / get b0 * 100))))
      rw [hst2len] at h1
      cases hrec : normalizeLoopStore get set ((st ++ [b0 :: t]).set st.length
          ((b0 :: t).map (fun b => set b (get b / get b0 * 100)))) rest with
      | mk st3 res =>
        rw [hrec] at h1 h2
        have hfst : (match (st3, res) with
            | (st3, .error e) => (st3, Except.error (ε := AggError) e)
            | (st3, .ok nd) => (st3, .ok ((sym, st.length) :: nd))).1 = st3 := by
          cases res <;> rfl
        rw [hfst]
        refine ⟨le_trans (Nat.le_succ _) h1, fun r hr => ?_⟩
        rw [h2 r (by rw [hst2len]; exact Nat.lt_succ_of_lt hr),
          getRef_set_ne _ (Nat.ne_of_gt hr), getRef_append_left _ hr]

lemma aggregateOnStore_fst (get : Bar → ℚ) (set : Bar → ℚ → Bar) (st : Store)
    (dict : List (String × ℕ)) (w : WMap) :
    (aggregateOnStore get set st dict w).1 = (normalizeLoopStore get set st dict).1 := by
  unfold aggregateOnStore
  cases hrec : normalizeLoopStore get set st dict with
  | mk st1 res => cases res <;> rfl

/-- C10.  Neither aggregator mutates any input frame: both work on fresh
copies, so every DataFrame reference that was live before the call
dereferences to bar-for-bar the same frame afterwards, whether the call
succeeds or faults. -/
theorem aggregators_do_not_mutate_inputs (st : Store) (dict : List (String × ℕ))
    (w : WMap) :
    (∀ r < st.length,
        getRef (calculate_portfolio_performance_store st dict w).1 r = getRef st r) ∧
      ∀ r < st.length,
        getRef (calculate_combined_volume_store st dict w).1 r = getRef st r := by
  constructor
  · intro r hr
    unfold calculate_portfolio_performance_store
    rw [aggregateOnStore_fst]
    exact (normalizeLoopStore_preserves Bar.close closeSet dict st).2 r hr
  · intro r hr
    unfold calculate_combined_volume_store
    rw [aggregateOnStore_fst]
    exact (normalizeLoopStore_preserves Bar.volume volumeSet dict st).2 r hr

/-- A one-frame store for the frame-property witness. -/
def exStore : Store := [[mkBar 5 6 1]]

/-- Witness for C10: after running both aggregators on a store holding
one frame, the input frame is unchanged. -/
theorem aggregators_do_not_mutate_inputs_witness :
    getRef (calculate_portfolio_performance_store exStore [("A", 0)] [("A", 100)]).1 0
        = getRef exStore 0 ∧
      getRef (calculate_combined_volume_store exStore [("A", 0)] [("A", 100)]).1 0
        = getRef exStore 0 :=
  ⟨(aggregators_do_not_mutate_inputs exStore [("A", 0)] [("A", 100)]).1 0 (by decide),
    (aggregators_do_not_mutate_inputs exStore [("A", 0)] [("A", 100)]).2 0 (by decide)⟩
